import Mathlib

/-! ## Data model of the encoder (`rejoice/lib.py`)

A `Language` is modelled by its ordered operator vocabulary
(`all_operators()`); an operator kind is identified by its position and
carries its name (`op.__name__`).  An e-graph node (`encode_node`'s
argument) is either a scalar leaf (a Python `int`) or an operator
application over child e-class ids. -/

structure Lang where
  ops : List String
deriving DecidableEq

inductive ENode where
  | scalar (v : ℤ)
  | op (kind : Nat) (children : List Nat)
deriving DecidableEq

/-- The `egraph.classes()` mapping: e-class id to its operator nodes, in
insertion order (a Python dict preserves it); the analysis data component
is ignored by the encoder, so it is omitted. -/
abbrev EGraphClasses := List (Nat × List ENode)

/-- `num_node_features` property of `Language`: `4 + len(self.all_operators())`. -/
def num_node_features (lang : Lang) : Nat := 4 + lang.ops.length

/-- `encode_node`: `[is_eclass, is_enode, is_scalar, scalar_val, ...onehot_optype]`.
`torch.zeros(num_node_features)` followed by index assignments becomes
`List.replicate _ 0` followed by `List.set`.  An `int` operand sets slots 2
and 3 and returns; an operator node sets slot 1 and the one-hot slot
`4 + ind` of the first (unique) matching operator kind.  The source raises
`Exception("Failed to encode node")` when no kind matches: that is `none`. -/
def encode_node (lang : Lang) : ENode → Option (List ℤ)
  | .scalar v => some (((List.replicate (num_node_features lang) 0).set 2 1).set 3 v)
  | .op k _ =>
    if k < lang.ops.length then
      some (((List.replicate (num_node_features lang) 0).set 1 1).set (4 + k) 1)
    else
      none

/-- `encode_eclass`: a zero row with slot 0 (`is_eclass`) set; the
`eclass_id` and `data` arguments are ignored by the source. -/
def encode_eclass (lang : Lang) (_eclassId : Nat) : List ℤ :=
  (List.replicate (num_node_features lang) 0).set 0 1

/-- First index of the maximum, running state: remaining list, best value,
best index, current index.  `torch.argmax` over the one-hot segment. -/
def argmaxGo : List ℤ → ℤ → Nat → Nat → Nat
  | [], _, best, _ => best
  | y :: ys, bv, best, cur =>
    if bv < y then argmaxGo ys y cur (cur + 1) else argmaxGo ys bv best (cur + 1)

def argmax : List ℤ → Nat
  | [] => 0
  | x :: xs => argmaxGo xs x 0 1

/-- The dict returned by `decode_node`.  `op` is `none` when the `"op"` key
is absent (the row is not an enode); an out-of-range arg-max index (a
Python `IndexError`, unreachable on encoded rows) is also modelled as
`none` via `List.get?`. -/
structure DecodedNode where
  type : String
  is_scalar : Bool
  value : ℤ
  op : Option String
deriving DecidableEq

/-- `decode_node`: `type` from `node[0] == 1`, `is_scalar` from
`bool(node[2])`, `value` from `node[3]`; if `node[1] == 1`, the operator
name at the arg-max of the one-hot segment `node[4:]`. -/
def decode_node (lang : Lang) (node : List ℤ) : DecodedNode :=
  { type := if node.getD 0 0 = 1 then "eclass" else "enode"
    is_scalar := node.getD 2 0 != 0
    value := node.getD 3 0
    op := if node.getD 1 0 = 1 then lang.ops.get? (argmax (node.drop 4)) else none }

/-- Accumulating a list while any element may fail (a Python loop raising
an exception aborts the whole call): `none` as soon as one element is
`none`. -/
def optionMap {α β : Type} (f : α → Option β) : List α → Option (List β)
  | [] => some []
  | a :: l =>
    match f a, optionMap f l with
    | some b, some r => some (b :: r)
    | _, _ => none

/-- The per-node iteration space of the second loop of `encode_egraph`:
classes in mapping order, nodes within a class in order, each node paired
with its e-class id. -/
def flat_nodes (g : EGraphClasses) : List (Nat × ENode) :=
  g.flatMap (fun c => c.2.map (fun n => (c.1, n)))

/-- `eclass_to_ind` lookup: position of an e-class id among the keys (the
dict maps each id to the index of its row, which is its position since
e-class rows are inserted first, in mapping order).  `none` is a Python
`KeyError`. -/
def key_index (g : EGraphClasses) (eclassId : Nat) : Option Nat :=
  List.findIdx? (fun k => k == eclassId) (g.map Prod.fst)

/-- Edges (with their 2-wide one-hot attributes) contributed by the node at
global flat position `j`: the membership edge `eclass → enode` with
attribute `[0, 1]`, then one argument edge `enode → child eclass` with
attribute `[1, 0]` per child.  `E` is the number of e-class rows, so the
node's own row index is `E + j`. -/
def node_edges (g : EGraphClasses) (E : Nat) :
    Nat × (Nat × ENode) → Option (List ((Nat × Nat) × List ℤ))
  | (j, (cid, n)) =>
    match key_index g cid with
    | none => none
    | some src =>
      let memb := ((src, E + j), ([0, 1] : List ℤ))
      match n with
      | .scalar _ => some [memb]
      | .op _ cs =>
        (optionMap (fun c => (key_index g c).map
          (fun t => ((E + j, t), ([1, 0] : List ℤ)))) cs).map
          (fun ces => memb :: ces)

/-- All edges of the double loop of `encode_egraph`, in creation order. -/
def edge_list (g : EGraphClasses) : Option (List ((Nat × Nat) × List ℤ)) :=
  (optionMap (node_edges g g.length) (flat_nodes g).enum).map List.flatten

/-- `torch_geometric.utils.num_nodes.maybe_num_nodes` with `num_nodes=None`
on a non-empty edge index: `edge_index.max() + 1`. -/
def max_endpoint (edges : List (Nat × Nat)) : Nat :=
  (edges.flatMap (fun e => [e.1, e.2])).foldr max 0

/-- `torch_geometric.utils.add_remaining_self_loops(edge_index, edge_attr)`
with the default `fill_value = 1`: drop existing self-loops, append a
self-loop `(i, i)` for every node `i < edge_index.max() + 1`; appended
loop attributes are filled with ones, except that a node which already had
a self-loop keeps that loop's (last) original attribute. -/
def add_remaining_self_loops (edges : List (Nat × Nat)) (attrs : List (List ℤ)) :
    List (Nat × Nat) × List (List ℤ) :=
  let numNodes := max_endpoint edges + 1
  let z := edges.zip attrs
  let kept := z.filter (fun p => p.1.1 != p.1.2)
  let loopAttr : Nat → List ℤ := fun i =>
    match (z.filter (fun p => p.1.1 == p.1.2 && p.1.1 == i)).getLast? with
    | some p => p.2
    | none => [1, 1]
  (kept.map Prod.fst ++ (List.range numNodes).map (fun i => (i, i)),
   kept.map Prod.snd ++ (List.range numNodes).map loopAttr)

/-- The `torch_geometric.data.Data` object built by `encode_egraph`:
node feature matrix, edge index (list of directed edges) and edge
attribute matrix. -/
structure EncodedGraph where
  x : List (List ℤ)
  edge_index : List (Nat × Nat)
  edge_attr : List (List ℤ)
deriving DecidableEq

/-- `encode_egraph`: e-class rows first (in mapping order), then one row
per operator node (classes in order, nodes within a class in order), then
the edge lists, then `add_remaining_self_loops`.  `none` models the Python
exceptions: an unencodable node, a `KeyError` child lookup, or
`torch.stack` on an empty node or edge list. -/
def encode_egraph (lang : Lang) (g : EGraphClasses) : Option EncodedGraph :=
  let eclassRows := g.map (fun c => encode_eclass lang c.1)
  match optionMap (encode_node lang) (g.flatMap (fun c => c.2)), edge_list g with
  | some nodeRows, some ea =>
    let allRows := eclassRows ++ nodeRows
    if allRows.isEmpty then none
    else if ea.isEmpty then none
    else
      let (ei, attrs) := add_remaining_self_loops (ea.map Prod.fst) (ea.map Prod.snd)
      some { x := allRows, edge_index := ei, edge_attr := attrs }
  | _, _ => none

/-- Well-formedness of one node w.r.t. the vocabulary: its operator kind
matches some operator (otherwise `encode_node` raises). -/
def node_ok (lang : Lang) : ENode → Bool
  | .scalar _ => true
  | .op k _ => decide (k < lang.ops.length)

/-- Well-formedness of one node w.r.t. the mapping: every child e-class id
is a key (otherwise the `eclass_to_ind[str(ecid)]` lookup raises). -/
def children_ok (g : EGraphClasses) : ENode → Bool
  | .scalar _ => true
  | .op _ cs => cs.all (fun c => (g.map Prod.fst).contains c)

/-! ## Episode slice reconstruction (`ppo.py` lines 260-271)

`actions`/`rewards` are `[num_steps, num_envs]` tensors; one environment's
column is a `List`.  On episode completion at rollout step `step` with
reported episode length `L`, the source computes `start = (step+1) - L`
(a Python int, possibly negative) and slices the buffer column, taking
`buffer[num_steps+start:] ++ buffer[0:step+1]` in the wrap-around case and
`buffer[start:step+1]` otherwise.  (`Int.toNat` truncation matches Python
slicing whenever the episode fits in the buffer, `L ≤ num_steps`, which
is the domain the slice-reconstruction theorems assume; for longer
episodes Python's negative index would wrap again from the end.) -/

def episode_slice {α : Type} (buf : List α) (s L : Nat) : List α :=
  let start : ℤ := (s + 1 : ℤ) - (L : ℤ)
  if start < 0 then
    let start_before : ℤ := (buf.length : ℤ) + start
    buf.drop start_before.toNat ++ buf.take (s + 1)
  else
    (buf.drop start.toNat).take (s + 1 - start.toNat)

/-- `list(zip(ep_actions, ep_rewards))` of the source. -/
def episode_pairs {α β : Type} (acts : List α) (rews : List β) (s L : Nat) :
    List (α × β) :=
  (episode_slice acts s L).zip (episode_slice rews s L)

/-! ## Startup size computation and minibatch partition (`ppo.py`)

`parse_args` (lines 82-85) computes `batch_size = num_envs * num_steps`
and `minibatch_size = batch_size // num_minibatches` and performs no
divisibility validation; `//` by zero is a Python `ZeroDivisionError`.
The update loop (lines 320-322) slices the shuffled index array as
`b_inds[start:start+minibatch_size]` for `start in
range(0, batch_size, minibatch_size)`; `range` with step 0 raises. -/

def parse_args_sizes (num_envs num_steps num_minibatches : Nat) :
    Except String (Nat × Nat) :=
  if num_minibatches = 0 then Except.error "ZeroDivisionError"
  else Except.ok (num_envs * num_steps, (num_envs * num_steps) / num_minibatches)

/-- Python `range(start, stop, step)` for a positive step (step 0 raises,
handled by the caller). -/
def rangeStep (start stop step : Nat) : List Nat :=
  if _h : step = 0 ∨ stop ≤ start then []
  else start :: rangeStep (start + step) stop step
termination_by stop - start
decreasing_by
  rw [not_or] at _h
  omega

/-- The minibatch chunks `b_inds[start:end]` taken by the inner update
loop over one epoch, in order. -/
def minibatch_chunks {α : Type} (l : List α) (mbs : Nat) :
    Except String (List (List α)) :=
  if mbs = 0 then Except.error "range() arg 3 must not be zero"
  else Except.ok ((rangeStep 0 l.length mbs).map (fun s => (l.drop s).take mbs))

/-! ## KL early stop (`ppo.py` lines 318-370)

The epoch loop runs all minibatches of an epoch, then (when `target_kl`
is configured) compares the `approx_kl` of the epoch's **last** minibatch
against the threshold and `break`s out of the epoch loop if it exceeds.
The embedding abstracts each minibatch by its approximate KL value and
returns the KL values of the minibatch gradient steps actually performed,
in order. -/

def kl_trace (target_kl : Option ℚ) : List (List ℚ) → List ℚ
  | [] => []
  | e :: rest =>
    e ++ (match target_kl, e.getLast? with
      | some t, some k => if t < k then [] else kl_trace target_kl rest
      | _, _ => kl_trace target_kl rest)

/-! ## Advantage computation (`ppo.py` lines 277-300)

One environment's column of the `[num_steps, num_envs]` tensors
(`rewards`, `values`, `dones` — done flags are the floats 0.0/1.0) is a
function `Nat → ℚ`; all tensor arithmetic in the loop is elementwise, so
each environment's column evolves independently.  The backward loop is
embedded as a structural recursion on the loop counter that prepends each
newly written `advantages[t]` (resp. `returns[t]`), threading
`lastgaelam` (resp. `next_return`). -/

def gae_loop (rews vals dns : Nat → ℚ) (next_value next_done gamma lam : ℚ)
    (T : Nat) : Nat → ℚ → List ℚ → List ℚ
  | 0, _, acc => acc
  | t + 1, lastgaelam, acc =>
    let nextnonterminal := if t = T - 1 then 1 - next_done else 1 - dns (t + 1)
    let nextvalues := if t = T - 1 then next_value else vals (t + 1)
    let delta := rews t + gamma * nextvalues * nextnonterminal - vals t
    let newlast := delta + gamma * lam * nextnonterminal * lastgaelam
    gae_loop rews vals dns next_value next_done gamma lam T t newlast (newlast :: acc)

/-- The `advantages` tensor column after the GAE branch (`lastgaelam`
starts at 0, `t` runs from `T-1` down to `0`). -/
def advantages_gae (rews vals dns : Nat → ℚ) (next_value next_done gamma lam : ℚ)
    (T : Nat) : List ℚ :=
  gae_loop rews vals dns next_value next_done gamma lam T T 0 []

def values_list (vals : Nat → ℚ) (T : Nat) : List ℚ := (List.range T).map vals

/-- `returns = advantages + values` (elementwise tensor addition). -/
def returns_gae (rews vals dns : Nat → ℚ) (next_value next_done gamma lam : ℚ)
    (T : Nat) : List ℚ :=
  List.zipWith (fun a v => a + v)
    (advantages_gae rews vals dns next_value next_done gamma lam T)
    (values_list vals T)

/-- The non-GAE branch: plain discounted-return bootstrap threading
`next_return`. -/
def plain_loop (rews vals dns : Nat → ℚ) (next_value next_done gamma : ℚ)
    (T : Nat) : Nat → ℚ → List ℚ → List ℚ
  | 0, _, acc => acc
  | t + 1, next_return, acc =>
    let nextnonterminal := if t = T - 1 then 1 - next_done else 1 - dns (t + 1)
    let nr := if t = T - 1 then next_value else next_return
    let r := rews t + gamma * nextnonterminal * nr
    plain_loop rews vals dns next_value next_done gamma T t r (r :: acc)

def returns_plain (rews vals dns : Nat → ℚ) (next_value next_done gamma : ℚ)
    (T : Nat) : List ℚ :=
  plain_loop rews vals dns next_value next_done gamma T T 0 []

/-- `advantages = returns - values` in the non-GAE branch. -/
def advantages_plain (rews vals dns : Nat → ℚ) (next_value next_done gamma : ℚ)
    (T : Nat) : List ℚ :=
  List.zipWith (fun r v => r - v)
    (returns_plain rews vals dns next_value next_done gamma T)
    (values_list vals T)

/-- The value `advantages[t]` satisfies as produced by the backward loop:
`adv t = delta t + gamma*lam*nonterminal t * adv (t+1)` with `adv T = 0`.
Derived characterization used to relate the loop to the claims. -/
def adv_spec (rews vals dns : Nat → ℚ) (next_value next_done gamma lam : ℚ)
    (T : Nat) (t : Nat) : ℚ :=
  if _h : T ≤ t then 0
  else
    (rews t + gamma * (if t = T - 1 then next_value else vals (t + 1))
        * (if t = T - 1 then 1 - next_done else 1 - dns (t + 1)) - vals t)
      + gamma * lam * (if t = T - 1 then 1 - next_done else 1 - dns (t + 1))
        * adv_spec rews vals dns next_value next_done gamma lam T (t + 1)
termination_by T - t
decreasing_by omega

/-- Characterization of the plain-returns loop. -/
def ret_spec (rews vals dns : Nat → ℚ) (next_value next_done gamma : ℚ)
    (T : Nat) (t : Nat) : ℚ :=
  if _h : T ≤ t then 0
  else
    rews t + gamma * (if t = T - 1 then 1 - next_done else 1 - dns (t + 1))
      * (if t = T - 1 then next_value
         else ret_spec rews vals dns next_value next_done gamma T (t + 1))
termination_by T - t
decreasing_by omega

/-! ## Claim C10: advantage normalization before the clipped surrogate
(`ppo.py` lines 336-343)

Tensors become `List ℝ`; `.mean()` is sum over length, `.std()` is
torch's sample standard deviation (Bessel-corrected, `n - 1` in the
denominator), `torch.clamp` is min-of-max.  `pg_loss_raw` is the clipped
surrogate of lines 341-343 on whatever advantages it is handed; `pg_loss`
is the minibatch computation including the conditional in-place
standardization of lines 337-338. -/

noncomputable def tensor_mean (l : List ℝ) : ℝ := l.sum / l.length

noncomputable def tensor_std (l : List ℝ) : ℝ :=
  Real.sqrt ((l.map (fun x => (x - tensor_mean l) ^ 2)).sum / ((l.length : ℝ) - 1))

noncomputable def torch_clamp (x lo hi : ℝ) : ℝ := min (max x lo) hi

noncomputable def normalize_advantages (l : List ℝ) : List ℝ :=
  l.map (fun a => (a - tensor_mean l) / (tensor_std l + 1e-8))

noncomputable def pg_loss_raw (adv ratio : List ℝ) (clip_coef : ℝ) : ℝ :=
  tensor_mean ((adv.zip ratio).map (fun p =>
    max (-p.1 * p.2) (-p.1 * torch_clamp p.2 (1 - clip_coef) (1 + clip_coef))))

noncomputable def pg_loss (norm_adv : Bool) (adv ratio : List ℝ) (clip_coef : ℝ) : ℝ :=
  pg_loss_raw (if norm_adv then normalize_advantages adv else adv) ratio clip_coef

/-! ## Basic facts about `encode_node` rows -/

theorem replicate_four_add (n : Nat) (z : ℤ) :
    List.replicate (4 + n) z = z :: z :: z :: z :: List.replicate n z := by
  rw [Nat.add_comm]
  rfl

theorem encode_node_scalar_eq (lang : Lang) (v : ℤ) :
    encode_node lang (ENode.scalar v)
      = some (0 :: 0 :: 1 :: v :: List.replicate lang.ops.length 0) := by
  simp [encode_node, num_node_features, replicate_four_add, List.set]

theorem set_cons_four (a b c d x : ℤ) (l : List ℤ) (k : Nat) :
    (a :: b :: c :: d :: l).set (4 + k) x = a :: b :: c :: d :: l.set k x := by
  rw [Nat.add_comm]
  rfl

theorem encode_node_op_eq (lang : Lang) (k : Nat) (cs : List Nat)
    (hk : k < lang.ops.length) :
    encode_node lang (ENode.op k cs)
      = some (0 :: 1 :: 0 :: 0 :: (List.replicate lang.ops.length 0).set k 1) := by
  simp [encode_node, num_node_features, hk, replicate_four_add, List.set, set_cons_four]

theorem encode_eclass_eq (lang : Lang) (eclassId : Nat) :
    encode_eclass lang eclassId
      = 1 :: 0 :: 0 :: 0 :: List.replicate lang.ops.length 0 := by
  simp [encode_eclass, num_node_features, replicate_four_add, List.set]

theorem encode_node_length (lang : Lang) {n : ENode} {r : List ℤ}
    (h : encode_node lang n = some r) : r.length = num_node_features lang := by
  cases n with
  | scalar v =>
    rw [encode_node_scalar_eq] at h
    cases h
    simp only [List.length_cons, List.length_replicate, num_node_features]
    omega
  | op k cs =>
    by_cases hk : k < lang.ops.length
    · rw [encode_node_op_eq lang k cs hk] at h
      cases h
      simp only [List.length_cons, List.length_set, List.length_replicate, num_node_features]
      omega
    · simp [encode_node, hk] at h

/-- Claim C1 fails on the code: for the scalar leaf `5` (with a two-operator
vocabulary) the encoded row is `[0, 0, 1, 5, 0, 0]`, whose `is_enode` slot
(index 1) is `0`, not `1` as the claim states. -/
theorem c1_counterexample :
    encode_node ⟨["add", "mul"]⟩ (ENode.scalar 5) = some [0, 0, 1, 5, 0, 0]
      ∧ ([0, 0, 1, 5, 0, 0] : List ℤ).getD 1 0 ≠ 1 := by
  constructor
  · rfl
  · decide

/-- Claim C1 (amended): for every scalar leaf node (an int operand),
`encode_node` returns a feature row with `is_eclass = 0`, `is_enode = 0`,
`is_scalar = 1`, `scalar_value` equal to the leaf's value, and all operator
one-hot slots zero. -/
theorem c1_amended (lang : Lang) (v : ℤ) :
    encode_node lang (ENode.scalar v)
      = some (0 :: 0 :: 1 :: v :: List.replicate lang.ops.length 0) :=
  encode_node_scalar_eq lang v

/-! ## Arg-max over a one-hot segment (for `decode_node`) -/

theorem argmaxGo_zeros (r : Nat) (best cur : Nat) :
    argmaxGo (List.replicate r 0) 1 best cur = best := by
  induction r generalizing cur with
  | zero => rfl
  | succ r ih =>
    simp only [List.replicate_succ, argmaxGo]
    rw [if_neg (by decide)]
    exact ih (cur + 1)

theorem argmaxGo_lead_zeros (m r : Nat) (best cur : Nat) :
    argmaxGo (List.replicate m 0 ++ 1 :: List.replicate r 0) 0 best cur = cur + m := by
  induction m generalizing best cur with
  | zero =>
    simp only [List.replicate, List.nil_append, argmaxGo]
    rw [if_pos (by decide)]
    rw [argmaxGo_zeros]
    omega
  | succ m ih =>
    simp only [List.replicate_succ, List.cons_append, argmaxGo, List.append_eq]
    rw [if_neg (by decide)]
    rw [ih]
    omega

theorem set_replicate_decomp (n k : Nat) (hk : k < n) :
    (List.replicate n (0 : ℤ)).set k 1
      = List.replicate k 0 ++ 1 :: List.replicate (n - k - 1) 0 := by
  induction k generalizing n with
  | zero =>
    cases n with
    | zero => omega
    | succ n => simp [List.replicate_succ]
  | succ k ih =>
    cases n with
    | zero => omega
    | succ n =>
      simp only [List.replicate_succ, List.set_cons_succ, List.cons_append]
      rw [ih n (by omega)]
      have harith : n + 1 - (k + 1) - 1 = n - k - 1 := by omega
      rw [harith]

theorem argmax_onehot (n k : Nat) (hk : k < n) :
    argmax ((List.replicate n (0 : ℤ)).set k 1) = k := by
  rw [set_replicate_decomp n k hk]
  cases k with
  | zero =>
    simp only [List.replicate, List.nil_append, argmax]
    rw [argmaxGo_zeros]
  | succ k =>
    simp only [List.replicate_succ, List.cons_append, argmax]
    rw [argmaxGo_lead_zeros]
    omega

/-- Claim C9: decoding an encoded feature row recovers the correct
classification for every representable node kind: `encode_eclass` rows
decode as e-classes, scalar leaves decode as non-operator enodes carrying
the scalar flag and value, and operator enodes decode (via arg-max over
the one-hot segment) to the correct operator name. -/
theorem c9_roundtrip (lang : Lang) (eid : Nat) (v : ℤ) (k : Nat) (cs : List Nat)
    (hk : k < lang.ops.length) :
    decode_node lang (encode_eclass lang eid)
        = ⟨"eclass", false, 0, none⟩
      ∧ (∃ r, encode_node lang (ENode.scalar v) = some r
          ∧ decode_node lang r = ⟨"enode", true, v, none⟩)
      ∧ (∃ r, encode_node lang (ENode.op k cs) = some r
          ∧ decode_node lang r = ⟨"enode", false, 0, lang.ops.get? k⟩) := by
  refine ⟨?_, ⟨_, encode_node_scalar_eq lang v, ?_⟩, ⟨_, encode_node_op_eq lang k cs hk, ?_⟩⟩
  · rw [encode_eclass_eq]
    simp [decode_node, List.getD]
  · simp [decode_node, List.getD]
  · simp only [decode_node, List.getD, List.get?, List.drop]
    rw [argmax_onehot lang.ops.length k hk]
    simp

/-- Closed witness for `c9_roundtrip` at a concrete two-operator
vocabulary, operator kind 1 and scalar value 7. -/
theorem c9_roundtrip_witness :
    (1 < (⟨["add", "mul"]⟩ : Lang).ops.length)
      ∧ (decode_node ⟨["add", "mul"]⟩ (encode_eclass ⟨["add", "mul"]⟩ 0)
            = ⟨"eclass", false, 0, none⟩
          ∧ (∃ r, encode_node ⟨["add", "mul"]⟩ (ENode.scalar 7) = some r
              ∧ decode_node ⟨["add", "mul"]⟩ r = ⟨"enode", true, 7, none⟩)
          ∧ (∃ r, encode_node ⟨["add", "mul"]⟩ (ENode.op 1 [0, 0]) = some r
              ∧ decode_node ⟨["add", "mul"]⟩ r
                  = ⟨"enode", false, 0, (⟨["add", "mul"]⟩ : Lang).ops.get? 1⟩)) :=
  ⟨by decide, c9_roundtrip ⟨["add", "mul"]⟩ 0 7 1 [0, 0] (by decide)⟩

/-! ## Lemmas about `optionMap` -/

theorem optionMap_forall₂ {α β : Type} (f : α → Option β) :
    ∀ {l : List α} {r : List β}, optionMap f l = some r →
      List.Forall₂ (fun a b => f a = some b) l r := by
  intro l
  induction l with
  | nil =>
    intro r h
    simp only [optionMap, Option.some.injEq] at h
    rw [← h]
    exact List.Forall₂.nil
  | cons a l ih =>
    intro r h
    simp only [optionMap] at h
    cases hfa : f a with
    | none => rw [hfa] at h; simp at h
    | some b =>
      rw [hfa] at h
      cases hrest : optionMap f l with
      | none => rw [hrest] at h; simp at h
      | some r' =>
        rw [hrest] at h
        simp only [Option.some.injEq] at h
        rw [← h]
        exact List.Forall₂.cons hfa (ih hrest)

theorem optionMap_length {α β : Type} {f : α → Option β} {l : List α} {r : List β}
    (h : optionMap f l = some r) : r.length = l.length :=
  (List.Forall₂.length_eq (optionMap_forall₂ f h)).symm

theorem optionMap_mem {α β : Type} {f : α → Option β} {l : List α} {r : List β}
    (h : optionMap f l = some r) {b : β} (hb : b ∈ r) : ∃ a ∈ l, f a = some b := by
  have h2 := optionMap_forall₂ f h
  obtain ⟨⟨i, hi⟩, rfl⟩ := List.mem_iff_get.mp hb
  have hlen : i < l.length := by rw [h2.length_eq]; exact hi
  exact ⟨l.get ⟨i, hlen⟩, List.get_mem l i hlen, h2.get hlen hi⟩

theorem optionMap_isSome {α β : Type} {f : α → Option β} {l : List α}
    (h : ∀ a ∈ l, ∃ b, f a = some b) : ∃ r, optionMap f l = some r := by
  induction l with
  | nil => exact ⟨[], rfl⟩
  | cons a l ih =>
    obtain ⟨b, hb⟩ := h a (List.mem_cons_self a l)
    obtain ⟨r, hr⟩ := ih (fun x hx => h x (List.mem_cons_of_mem a hx))
    exact ⟨b :: r, by simp [optionMap, hb, hr]⟩

/-! ## Facts feeding the `encode_egraph` shape theorems -/

theorem encode_eclass_length (lang : Lang) (i : Nat) :
    (encode_eclass lang i).length = num_node_features lang := by
  simp [encode_eclass]

theorem encode_node_head (lang : Lang) {n : ENode} {r : List ℤ}
    (h : encode_node lang n = some r) : r.getD 0 0 = 0 := by
  cases n with
  | scalar v => rw [encode_node_scalar_eq] at h; cases h; rfl
  | op k cs =>
    by_cases hk : k < lang.ops.length
    · rw [encode_node_op_eq lang k cs hk] at h; cases h; rfl
    · simp [encode_node, hk] at h

theorem encode_node_isSome (lang : Lang) {n : ENode} (hn : node_ok lang n = true) :
    ∃ r, encode_node lang n = some r := by
  cases n with
  | scalar v => exact ⟨_, encode_node_scalar_eq lang v⟩
  | op k cs =>
    simp only [node_ok, decide_eq_true_eq] at hn
    exact ⟨_, encode_node_op_eq lang k cs hn⟩

theorem key_index_isSome {g : EGraphClasses} {c : Nat} (hc : c ∈ g.map Prod.fst) :
    ∃ i, key_index g c = some i ∧ i < g.length := by
  have hex : ∃ x, x ∈ g.map Prod.fst ∧ (fun k => k == c) x = true := ⟨c, hc, by simp⟩
  have h := List.findIdx?_eq_some_of_exists hex
  refine ⟨_, h, ?_⟩
  have := (List.findIdx?_eq_some_iff_findIdx_eq.mp h).1
  simpa using this

theorem mem_flat_nodes {g : EGraphClasses} {p : Nat × ENode} (hp : p ∈ flat_nodes g) :
    ∃ c ∈ g, p.1 = c.1 ∧ p.2 ∈ c.2 := by
  simp only [flat_nodes, List.mem_flatMap, List.mem_map] at hp
  obtain ⟨c, hc, n, hn, rfl⟩ := hp
  exact ⟨c, hc, rfl, hn⟩

theorem node_edges_isSome {g : EGraphClasses} {E : Nat} {j : Nat} {cid : Nat} {n : ENode}
    (hcid : cid ∈ g.map Prod.fst) (hch : children_ok g n = true) :
    ∃ pl, node_edges g E (j, (cid, n)) = some pl := by
  obtain ⟨src, hsrc, _⟩ := key_index_isSome hcid
  cases n with
  | scalar v => exact ⟨[((src, E + j), [0, 1])], by simp [node_edges, hsrc]⟩
  | op k cs =>
    simp only [children_ok, List.all_eq_true] at hch
    have hcs : ∀ c ∈ cs, ∃ t, (key_index g c).map
        (fun t => ((E + j, t), ([1, 0] : List ℤ))) = some ((E + j, t), [1, 0]) := by
      intro c hc
      have hmem : c ∈ g.map Prod.fst := by
        have := hch c hc
        simpa [List.contains_iff_exists_mem_beq, List.mem_map] using this
      obtain ⟨t, ht, _⟩ := key_index_isSome hmem
      exact ⟨t, by simp [ht]⟩
    obtain ⟨ces, hces⟩ := optionMap_isSome (fun c hc => by
      obtain ⟨t, ht⟩ := hcs c hc
      exact ⟨_, ht⟩)
    exact ⟨((src, E + j), [0, 1]) :: ces, by simp [node_edges, hsrc, hces]⟩

theorem node_edges_ne_nil {g : EGraphClasses} {E : Nat} {p : Nat × (Nat × ENode)}
    {pl : List ((Nat × Nat) × List ℤ)} (h : node_edges g E p = some pl) : pl ≠ [] := by
  obtain ⟨j, cid, n⟩ := p
  cases hk : key_index g cid with
  | none => simp [node_edges, hk] at h
  | some src =>
    cases n with
    | scalar v =>
      simp only [node_edges, hk, Option.some.injEq] at h
      rw [← h]
      simp
    | op k cs =>
      simp only [node_edges, hk] at h
      cases hcm : optionMap (fun c => (key_index g c).map
          (fun t => ((E + j, t), ([1, 0] : List ℤ)))) cs with
      | none => rw [hcm] at h; simp at h
      | some ces =>
        rw [hcm] at h
        simp only [Option.map_some', Option.some.injEq] at h
        rw [← h]
        simp

theorem flat_nodes_length (g : EGraphClasses) :
    (flat_nodes g).length = (g.flatMap (fun c => c.2)).length := by
  induction g with
  | nil => rfl
  | cons c rest ih =>
    have h1 : flat_nodes (c :: rest) = (c.2.map fun n => (c.1, n)) ++ flat_nodes rest := by
      simp [flat_nodes, List.flatMap_cons]
    rw [h1, List.length_append, List.length_map, List.flatMap_cons, List.length_append, ih]

theorem flat_nodes_ne_nil {g : EGraphClasses} (hE : 1 ≤ g.length)
    (hne : ∀ c ∈ g, c.2 ≠ []) : flat_nodes g ≠ [] := by
  cases g with
  | nil => simp at hE
  | cons c rest =>
    have hc := hne c (List.mem_cons_self _ _)
    cases h2 : c.2 with
    | nil => exact absurd h2 hc
    | cons n ns =>
      simp [flat_nodes, List.flatMap_cons, h2]

/-- Claim C7: for every well-formed search state with `E ≥ 1` e-classes
(each holding at least one node whose operator kind is in the vocabulary
and whose children resolve), `encode_egraph` succeeds and produces a node
feature matrix with exactly `E + N` rows, each of the fixed width
`4 + number of operator kinds`, with all `E` e-class rows laid out before
any enode row (no enode row has its `is_eclass` slot set). -/
theorem c7_encode_shape (lang : Lang) (g : EGraphClasses)
    (hE : 1 ≤ g.length)
    (hne : ∀ c ∈ g, c.2 ≠ [])
    (hok : ∀ c ∈ g, ∀ n ∈ c.2, node_ok lang n = true)
    (hch : ∀ c ∈ g, ∀ n ∈ c.2, children_ok g n = true) :
    ∃ d nodeRows, encode_egraph lang g = some d
      ∧ d.x = g.map (fun c => encode_eclass lang c.1) ++ nodeRows
      ∧ d.x.length = g.length + (g.flatMap (fun c => c.2)).length
      ∧ (∀ r ∈ d.x, r.length = 4 + lang.ops.length)
      ∧ (∀ r ∈ nodeRows, r.getD 0 0 = 0) := by
  obtain ⟨nodeRows, hrows⟩ := optionMap_isSome (f := encode_node lang)
    (l := g.flatMap fun c => c.2) (fun n hn => by
      rw [List.mem_flatMap] at hn
      obtain ⟨c, hc, hnc⟩ := hn
      exact encode_node_isSome lang (hok c hc n hnc))
  obtain ⟨perLists, hper⟩ := optionMap_isSome (f := node_edges g g.length)
    (l := (flat_nodes g).enum) (fun p hp => by
      obtain ⟨j, cid, n⟩ := p
      have hmem : (cid, n) ∈ flat_nodes g := by
        have h1 := List.mem_map_of_mem Prod.snd hp
        rw [List.enum_map_snd] at h1
        exact h1
      obtain ⟨c, hc, hcid, hnc⟩ := mem_flat_nodes hmem
      have hcid2 : cid = c.1 := hcid
      have hcidmem : cid ∈ g.map Prod.fst := by
        rw [hcid2]; exact List.mem_map_of_mem Prod.fst hc
      exact node_edges_isSome hcidmem (hch c hc n hnc))
  have hedge : edge_list g = some perLists.flatten := by
    simp [edge_list, hper]
  have hflat : flat_nodes g ≠ [] := flat_nodes_ne_nil hE hne
  have hjoin_ne : perLists.flatten ≠ [] := by
    cases hpl : perLists with
    | nil =>
      exfalso
      apply hflat
      have hlen := optionMap_length hper
      rw [hpl] at hlen
      simp only [List.length_nil, List.enum_length] at hlen
      exact List.length_eq_zero.mp hlen.symm
    | cons pl rest =>
      rw [hpl] at hper
      obtain ⟨p, _, hp⟩ := optionMap_mem hper (List.mem_cons_self pl rest)
      have hplne := node_edges_ne_nil hp
      have hex : ∃ x, x ∈ pl := by
        cases pl with
        | nil => exact absurd rfl hplne
        | cons e es => exact ⟨e, List.mem_cons_self e es⟩
      obtain ⟨x, hx⟩ := hex
      intro hcon
      have hxin : x ∈ (pl :: rest).flatten :=
        List.mem_flatten.mpr ⟨pl, List.mem_cons_self pl rest, hx⟩
      rw [hcon] at hxin
      exact absurd hxin (List.not_mem_nil x)
  have hallne : ((g.map fun c => encode_eclass lang c.1) ++ nodeRows) ≠ [] := by
    cases g with
    | nil => simp at hE
    | cons c rest => simp
  have hEg : encode_egraph lang g = some
      { x := (g.map fun c => encode_eclass lang c.1) ++ nodeRows,
        edge_index := (add_remaining_self_loops (perLists.flatten.map Prod.fst)
          (perLists.flatten.map Prod.snd)).1,
        edge_attr := (add_remaining_self_loops (perLists.flatten.map Prod.fst)
          (perLists.flatten.map Prod.snd)).2 } := by
    have h1 : ((g.map fun c => encode_eclass lang c.1) ++ nodeRows).isEmpty = false :=
      List.isEmpty_eq_false.mpr hallne
    have h2 : perLists.flatten.isEmpty = false := List.isEmpty_eq_false.mpr hjoin_ne
    simp only [encode_egraph, hrows, hedge, h1, h2, Bool.false_eq_true, if_false]
  refine ⟨_, nodeRows, hEg, rfl, ?_, ?_, ?_⟩
  · simp only [List.length_append, List.length_map]
    rw [optionMap_length hrows]
  · intro r hr
    rcases List.mem_append.mp hr with hl | hrr
    · obtain ⟨c, _, rfl⟩ := List.mem_map.mp hl
      rw [encode_eclass_length]
      rfl
    · obtain ⟨n, _, hn⟩ := optionMap_mem hrows hrr
      rw [encode_node_length lang hn]
      rfl
  · intro r hr
    obtain ⟨n, _, hn⟩ := optionMap_mem hrows hr
    exact encode_node_head lang hn

/-- Closed witness for `c7_encode_shape`: one e-class `0` holding the
operator node `add(0, 0)` and the scalar leaf `5`, single-operator
vocabulary. -/
theorem c7_encode_shape_witness :
    ((1 ≤ ([(0, [ENode.op 0 [0, 0], ENode.scalar 5])] : EGraphClasses).length)
      ∧ (∀ c ∈ ([(0, [ENode.op 0 [0, 0], ENode.scalar 5])] : EGraphClasses), c.2 ≠ [])
      ∧ (∀ c ∈ ([(0, [ENode.op 0 [0, 0], ENode.scalar 5])] : EGraphClasses),
          ∀ n ∈ c.2, node_ok ⟨["add"]⟩ n = true)
      ∧ (∀ c ∈ ([(0, [ENode.op 0 [0, 0], ENode.scalar 5])] : EGraphClasses),
          ∀ n ∈ c.2, children_ok [(0, [ENode.op 0 [0, 0], ENode.scalar 5])] n = true))
      ∧ (∃ d nodeRows,
          encode_egraph ⟨["add"]⟩ [(0, [ENode.op 0 [0, 0], ENode.scalar 5])] = some d
          ∧ d.x = ([(0, [ENode.op 0 [0, 0], ENode.scalar 5])] : EGraphClasses).map
              (fun c => encode_eclass ⟨["add"]⟩ c.1) ++ nodeRows
          ∧ d.x.length = ([(0, [ENode.op 0 [0, 0], ENode.scalar 5])] : EGraphClasses).length
              + (([(0, [ENode.op 0 [0, 0], ENode.scalar 5])] : EGraphClasses).flatMap
                  (fun c => c.2)).length
          ∧ (∀ r ∈ d.x, r.length = 4 + (⟨["add"]⟩ : Lang).ops.length)
          ∧ (∀ r ∈ nodeRows, r.getD 0 0 = 0)) :=
  ⟨⟨by decide, by decide, by decide, by decide⟩,
    c7_encode_shape ⟨["add"]⟩ [(0, [ENode.op 0 [0, 0], ENode.scalar 5])]
      (by decide) (by decide) (by decide) (by decide)⟩

/-! ## Structure of the edge list (for the self-loop claim) -/

theorem key_index_lt {g : EGraphClasses} {c i : Nat} (h : key_index g c = some i) :
    i < g.length := by
  have h2 := (List.findIdx?_eq_some_iff_findIdx_eq.mp h).1
  simpa using h2

/-- Every edge created by the double loop is either a membership edge
(e-class source, enode target, attribute `[0, 1]`) or an argument edge
(enode source, e-class target, attribute `[1, 0]`). -/
theorem node_edges_shape {g : EGraphClasses} {E : Nat} {j cid : Nat} {n : ENode}
    {pl : List ((Nat × Nat) × List ℤ)} (h : node_edges g E (j, (cid, n)) = some pl) :
    ∀ e ∈ pl, (e.2 = [0, 1] ∧ e.1.1 < g.length ∧ e.1.2 = E + j)
      ∨ (e.2 = [1, 0] ∧ e.1.1 = E + j ∧ e.1.2 < g.length) := by
  cases hk : key_index g cid with
  | none => simp [node_edges, hk] at h
  | some src =>
    have hsrc := key_index_lt hk
    cases n with
    | scalar v =>
      simp only [node_edges, hk, Option.some.injEq] at h
      rw [← h]
      intro e he
      simp only [List.mem_singleton] at he
      rw [he]
      exact Or.inl ⟨rfl, hsrc, rfl⟩
    | op k cs =>
      simp only [node_edges, hk] at h
      cases hcm : optionMap (fun c => (key_index g c).map
          (fun t => ((E + j, t), ([1, 0] : List ℤ)))) cs with
      | none => rw [hcm] at h; simp at h
      | some ces =>
        rw [hcm] at h
        simp only [Option.map_some', Option.some.injEq] at h
        rw [← h]
        intro e he
        rcases List.mem_cons.mp he with he1 | he2
        · rw [he1]
          exact Or.inl ⟨rfl, hsrc, rfl⟩
        · obtain ⟨c, _, hc⟩ := optionMap_mem hcm he2
          cases hkc : key_index g c with
          | none => rw [hkc] at hc; simp at hc
          | some t =>
            rw [hkc] at hc
            simp only [Option.map_some', Option.some.injEq] at hc
            rw [← hc]
            exact Or.inr ⟨rfl, rfl, key_index_lt hkc⟩

theorem edge_list_inv {g : EGraphClasses} {ea : List ((Nat × Nat) × List ℤ)}
    (h : edge_list g = some ea) :
    ∃ perLists, optionMap (node_edges g g.length) (flat_nodes g).enum = some perLists
      ∧ ea = perLists.flatten := by
  simp only [edge_list, Option.map_eq_some'] at h
  obtain ⟨perLists, h1, h2⟩ := h
  exact ⟨perLists, h1, h2.symm⟩

theorem mem_enum_bound {α : Type} {l : List α} {p : Nat × α} (hp : p ∈ l.enum) :
    p.1 < l.length := by
  rcases p with ⟨j, a⟩
  rw [List.enum_eq_enumFrom, List.mk_mem_enumFrom_iff_le_and_getElem?_sub] at hp
  obtain ⟨-, hget⟩ := hp
  simp only [Nat.sub_zero] at hget
  by_contra hcon
  rw [List.getElem?_eq_none (by omega)] at hget
  cases hget

/-- Endpoint bounds for every edge of `edge_list`: membership edges go
e-class → enode, argument edges go enode → e-class (with the `E + N` row
count as upper bound for enode indices). -/
theorem edge_list_shape {g : EGraphClasses} {ea : List ((Nat × Nat) × List ℤ)}
    (h : edge_list g = some ea) :
    ∀ e ∈ ea, (e.2 = [0, 1] ∧ e.1.1 < g.length
        ∧ g.length ≤ e.1.2 ∧ e.1.2 < g.length + (flat_nodes g).length)
      ∨ (e.2 = [1, 0] ∧ g.length ≤ e.1.1
        ∧ e.1.1 < g.length + (flat_nodes g).length ∧ e.1.2 < g.length) := by
  obtain ⟨perLists, hper, rfl⟩ := edge_list_inv h
  intro e he
  obtain ⟨pl, hpl, hepl⟩ := List.mem_flatten.mp he
  obtain ⟨p, hpenum, hpe⟩ := optionMap_mem hper hpl
  obtain ⟨j, cid, n⟩ := p
  have hj : j < (flat_nodes g).length := mem_enum_bound hpenum
  have hshape := node_edges_shape hpe e hepl
  rcases hshape with ⟨ha, hb, hc⟩ | ⟨ha, hb, hc⟩
  · exact Or.inl ⟨ha, hb, by omega, by omega⟩
  · exact Or.inr ⟨ha, by omega, by omega, hc⟩

/-- Each per-node edge list starts with the membership edge, whose target
is the node's own row index `E + j`. -/
theorem node_edges_memb {g : EGraphClasses} {E : Nat} {j cid : Nat} {n : ENode}
    {pl : List ((Nat × Nat) × List ℤ)} (h : node_edges g E (j, (cid, n)) = some pl) :
    ∃ src, ((src, E + j), ([0, 1] : List ℤ)) ∈ pl := by
  cases hk : key_index g cid with
  | none => simp [node_edges, hk] at h
  | some src =>
    cases n with
    | scalar v =>
      simp only [node_edges, hk, Option.some.injEq] at h
      exact ⟨src, by rw [← h]; exact List.mem_singleton_self _⟩
    | op k cs =>
      simp only [node_edges, hk] at h
      cases hcm : optionMap (fun c => (key_index g c).map
          (fun t => ((E + j, t), ([1, 0] : List ℤ)))) cs with
      | none => rw [hcm] at h; simp at h
      | some ces =>
        rw [hcm] at h
        simp only [Option.map_some', Option.some.injEq] at h
        exact ⟨src, by rw [← h]; exact List.mem_cons_self _ _⟩

/-- The last node's membership edge attains the maximal endpoint
`E + N - 1`. -/
theorem edge_list_attain {g : EGraphClasses} {ea : List ((Nat × Nat) × List ℤ)}
    (h : edge_list g = some ea) (hN : 1 ≤ (flat_nodes g).length) :
    ∃ e ∈ ea, e.1.2 = g.length + ((flat_nodes g).length - 1) := by
  obtain ⟨perLists, hper, rfl⟩ := edge_list_inv h
  have hlen : perLists.length = (flat_nodes g).enum.length := optionMap_length hper
  have hjlt : (flat_nodes g).length - 1 < (flat_nodes g).enum.length := by
    simp only [List.enum_eq_enumFrom, List.enumFrom_length]
    omega
  have hjlt2 : (flat_nodes g).length - 1 < perLists.length := by omega
  have hfor := optionMap_forall₂ _ hper
  have hrel := hfor.get (i := (flat_nodes g).length - 1) hjlt hjlt2
  set j := (flat_nodes g).length - 1 with hjdef
  have henum : (flat_nodes g).enum.get ⟨j, hjlt⟩
      = (j, (flat_nodes g).get ⟨j, by omega⟩) := by
    simp only [List.get_eq_getElem, List.enum_eq_enumFrom, List.getElem_enumFrom,
      Nat.zero_add]
  rw [henum] at hrel
  rcases hq : (flat_nodes g).get ⟨j, by omega⟩ with ⟨cid, n⟩
  rw [hq] at hrel
  obtain ⟨src, hmemb⟩ := node_edges_memb hrel
  refine ⟨((src, g.length + j), [0, 1]), ?_, rfl⟩
  exact List.mem_flatten.mpr
    ⟨perLists.get ⟨j, hjlt2⟩, List.get_mem perLists j hjlt2, hmemb⟩

theorem foldr_max_le {l : List Nat} {m : Nat} (h : ∀ x ∈ l, x ≤ m) :
    l.foldr max 0 ≤ m := by
  induction l with
  | nil => exact Nat.zero_le m
  | cons a l ih =>
    simp only [List.foldr_cons]
    exact Nat.max_le.mpr ⟨h a (List.mem_cons_self a l),
      ih (fun x hx => h x (List.mem_cons_of_mem a hx))⟩

theorem le_foldr_max {l : List Nat} {x : Nat} (hx : x ∈ l) : x ≤ l.foldr max 0 := by
  induction l with
  | nil => exact absurd hx (List.not_mem_nil x)
  | cons a l ih =>
    simp only [List.foldr_cons]
    rcases List.mem_cons.mp hx with rfl | hmem
    · exact Nat.le_max_left x _
    · exact Nat.le_trans (ih hmem) (Nat.le_max_right a _)

theorem edge_list_ne_nil_N {g : EGraphClasses} {ea : List ((Nat × Nat) × List ℤ)}
    (h : edge_list g = some ea) (hne : ea ≠ []) : 1 ≤ (flat_nodes g).length := by
  obtain ⟨perLists, hper, rfl⟩ := edge_list_inv h
  have hlen : perLists.length = (flat_nodes g).enum.length := optionMap_length hper
  by_contra hcon
  have hN0 : (flat_nodes g).length = 0 := by omega
  have hp0 : perLists.length = 0 := by
    rw [hlen]
    simp only [List.enum_eq_enumFrom, List.enumFrom_length]
    exact hN0
  rw [List.length_eq_zero.mp hp0] at hne
  exact hne rfl

/-- The inferred node count of the e-graph's edge index is exactly the row
count `E + N`: no node index exceeds `E + N - 1`, and the last enode's
membership edge attains it. -/
theorem max_endpoint_eq {g : EGraphClasses} {ea : List ((Nat × Nat) × List ℤ)}
    (h : edge_list g = some ea) (hN : 1 ≤ (flat_nodes g).length) :
    max_endpoint (ea.map Prod.fst) = g.length + (flat_nodes g).length - 1 := by
  apply Nat.le_antisymm
  · apply foldr_max_le
    intro x hx
    simp only [max_endpoint] at hx
    obtain ⟨pr, hpr, hxin⟩ := List.mem_flatMap.mp hx
    obtain ⟨e, he, rfl⟩ := List.mem_map.mp hpr
    have hs := edge_list_shape h e he
    simp only [List.mem_cons, List.mem_singleton] at hxin
    rcases hs with ⟨-, h1, h2, h3⟩ | ⟨-, h1, h2, h3⟩ <;>
      rcases hxin with rfl | rfl | habs <;> first
        | omega
        | exact absurd habs (List.not_mem_nil x)
  · obtain ⟨e, he, htgt⟩ := edge_list_attain h hN
    apply le_foldr_max
    apply List.mem_flatMap.mpr
    refine ⟨e.1, List.mem_map_of_mem Prod.fst he, ?_⟩
    have harith : g.length + (flat_nodes g).length - 1 = e.1.2 := by omega
    rw [harith]
    simp

theorem edge_list_no_loops {g : EGraphClasses} {ea : List ((Nat × Nat) × List ℤ)}
    (h : edge_list g = some ea) :
    ∀ e ∈ ea.map Prod.fst, e.1 ≠ e.2 := by
  intro e he
  obtain ⟨p, hp, rfl⟩ := List.mem_map.mp he
  rcases edge_list_shape h p hp with ⟨-, h1, h2, -⟩ | ⟨-, h1, -, h2⟩ <;> omega

/-- With no pre-existing self-loop (the e-graph edge lists never produce
one), `add_remaining_self_loops` keeps every original edge and appends one
self-loop per node, every appended loop attribute being the fill value
`[1, 1]`. -/
theorem add_remaining_no_loops (edges : List (Nat × Nat)) (attrs : List (List ℤ))
    (hlen : edges.length = attrs.length)
    (hnl : ∀ e ∈ edges, e.1 ≠ e.2) :
    add_remaining_self_loops edges attrs
      = (edges ++ (List.range (max_endpoint edges + 1)).map (fun i => (i, i)),
         attrs ++ List.replicate (max_endpoint edges + 1) [1, 1]) := by
  have hz : ∀ p ∈ edges.zip attrs, p.1.1 ≠ p.1.2 := by
    intro p hp
    rcases p with ⟨e, a⟩
    exact hnl e (List.of_mem_zip hp).1
  have hkept : (edges.zip attrs).filter (fun p => p.1.1 != p.1.2) = edges.zip attrs :=
    List.filter_eq_self.mpr (fun p hp => by simpa using hz p hp)
  have hmapfst : (edges.zip attrs).map Prod.fst = edges :=
    List.map_fst_zip edges attrs (le_of_eq hlen)
  have hmapsnd : (edges.zip attrs).map Prod.snd = attrs :=
    List.map_snd_zip edges attrs (ge_of_eq hlen)
  have hloop : ∀ i : Nat,
      (edges.zip attrs).filter (fun p => p.1.1 == p.1.2 && p.1.1 == i) = [] := by
    intro i
    rw [List.filter_eq_nil_iff]
    intro p hp
    simp [hz p hp]
  simp only [add_remaining_self_loops, hkept, hmapfst, hmapsnd]
  rw [Prod.mk.injEq]
  refine ⟨rfl, ?_⟩
  congr 1
  rw [List.eq_replicate_iff]
  refine ⟨by simp, ?_⟩
  intro b hb
  obtain ⟨i, -, hbi⟩ := List.mem_map.mp hb
  rw [hloop i] at hbi
  simpa using hbi.symm

theorem encode_egraph_inv {lang : Lang} {g : EGraphClasses} {d : EncodedGraph}
    (h : encode_egraph lang g = some d) :
    ∃ nodeRows ea,
      optionMap (encode_node lang) (g.flatMap fun c => c.2) = some nodeRows
      ∧ edge_list g = some ea
      ∧ ea ≠ []
      ∧ d.x = (g.map fun c => encode_eclass lang c.1) ++ nodeRows
      ∧ d.edge_index = (add_remaining_self_loops (ea.map Prod.fst) (ea.map Prod.snd)).1
      ∧ d.edge_attr = (add_remaining_self_loops (ea.map Prod.fst) (ea.map Prod.snd)).2 := by
  cases hrows : optionMap (encode_node lang) (g.flatMap fun c => c.2) with
  | none => simp [encode_egraph, hrows] at h
  | some nodeRows =>
    cases hedge : edge_list g with
    | none => simp [encode_egraph, hrows, hedge] at h
    | some ea =>
      simp only [encode_egraph, hrows, hedge] at h
      by_cases h1 : ((g.map fun c => encode_eclass lang c.1) ++ nodeRows).isEmpty
      · rw [if_pos h1] at h
        cases h
      · rw [if_neg h1] at h
        by_cases h2 : ea.isEmpty
        · rw [if_pos h2] at h
          cases h
        · rw [if_neg h2] at h
          have h3 : some (⟨(g.map fun c => encode_eclass lang c.1) ++ nodeRows,
              (add_remaining_self_loops (ea.map Prod.fst) (ea.map Prod.snd)).1,
              (add_remaining_self_loops (ea.map Prod.fst) (ea.map Prod.snd)).2⟩
                : EncodedGraph) = some d := h
          injection h3 with h4
          refine ⟨nodeRows, ea, rfl, rfl, ?_, ?_, ?_, ?_⟩
          · intro hcon
            rw [hcon] at h2
            exact h2 rfl
          · rw [← h4]
          · rw [← h4]
          · rw [← h4]

/-- Claim C8 (amended): in every graph produced by `encode_egraph`, a
self-loop edge is present for every node (e-class and enode alike), and
each added self-loop carries the fill attribute `[1, 1]` (the
`add_remaining_self_loops` default fill of ones, not a zero attribute),
which is distinct from the `[0, 1]` membership and `[1, 0]` argument
edge-type attributes. -/
theorem c8_amended (lang : Lang) (g : EGraphClasses) (d : EncodedGraph)
    (h : encode_egraph lang g = some d) :
    (∀ i, i < d.x.length →
        ((i, i), ([1, 1] : List ℤ)) ∈ d.edge_index.zip d.edge_attr)
      ∧ ([1, 1] : List ℤ) ≠ [0, 1] ∧ ([1, 1] : List ℤ) ≠ [1, 0] := by
  obtain ⟨nodeRows, ea, hrows, hedge, hea, hx, hei, hattr⟩ := encode_egraph_inv h
  have hN : 1 ≤ (flat_nodes g).length := edge_list_ne_nil_N hedge hea
  have hnl : ∀ e ∈ ea.map Prod.fst, e.1 ≠ e.2 := edge_list_no_loops hedge
  have hlen2 : (ea.map Prod.fst).length = (ea.map Prod.snd).length := by simp
  have hadd := add_remaining_no_loops (ea.map Prod.fst) (ea.map Prod.snd) hlen2 hnl
  have hM : max_endpoint (ea.map Prod.fst) + 1 = g.length + (flat_nodes g).length := by
    rw [max_endpoint_eq hedge hN]
    omega
  have hxlen : d.x.length = g.length + (flat_nodes g).length := by
    rw [hx]
    simp only [List.length_append, List.length_map]
    rw [optionMap_length hrows, ← flat_nodes_length]
  refine ⟨?_, by decide, by decide⟩
  intro i hi
  rw [hei, hattr, hadd]
  rw [List.zip_append (by simp)]
  apply List.mem_append_right
  have hrep : List.replicate (max_endpoint (ea.map Prod.fst) + 1) ([1, 1] : List ℤ)
      = (List.range (max_endpoint (ea.map Prod.fst) + 1)).map (fun _ => [1, 1]) := by
    rw [List.map_const', List.length_range]
  rw [hrep, List.zip_map']
  have hmem : i ∈ List.range (max_endpoint (ea.map Prod.fst) + 1) :=
    List.mem_range.mpr (by omega)
  exact List.mem_map_of_mem _ hmem

/-- Closed witness for `c8_amended` at the one-class, one-scalar-node
e-graph: both the e-class row 0 and the enode row 1 receive a self-loop
with attribute `[1, 1]`. -/
theorem c8_amended_witness :
    (encode_egraph ⟨["add"]⟩ [(0, [ENode.scalar 5])]
        = some ⟨[[1, 0, 0, 0, 0], [0, 0, 1, 5, 0]],
                [(0, 1), (0, 0), (1, 1)],
                [[0, 1], [1, 1], [1, 1]]⟩)
      ∧ ((∀ i, i < (⟨[[1, 0, 0, 0, 0], [0, 0, 1, 5, 0]],
                [(0, 1), (0, 0), (1, 1)],
                [[0, 1], [1, 1], [1, 1]]⟩ : EncodedGraph).x.length →
            ((i, i), ([1, 1] : List ℤ))
              ∈ (⟨[[1, 0, 0, 0, 0], [0, 0, 1, 5, 0]],
                [(0, 1), (0, 0), (1, 1)],
                [[0, 1], [1, 1], [1, 1]]⟩ : EncodedGraph).edge_index.zip
                (⟨[[1, 0, 0, 0, 0], [0, 0, 1, 5, 0]],
                [(0, 1), (0, 0), (1, 1)],
                [[0, 1], [1, 1], [1, 1]]⟩ : EncodedGraph).edge_attr)
          ∧ ([1, 1] : List ℤ) ≠ [0, 1] ∧ ([1, 1] : List ℤ) ≠ [1, 0]) :=
  ⟨by decide, c8_amended ⟨["add"]⟩ [(0, [ENode.scalar 5])] _ (by decide)⟩

/-- Claim C8 fails on the code: `add_remaining_self_loops` is called
without `fill_value`, whose library default is `1`, so on the one-class,
one-scalar-node e-graph every added self-loop carries the attribute
`[1, 1]`, not a zero/neutral attribute. -/
theorem c8_counterexample :
    encode_egraph ⟨["add"]⟩ [(0, [ENode.scalar 5])]
        = some ⟨[[1, 0, 0, 0, 0], [0, 0, 1, 5, 0]],
                [(0, 1), (0, 0), (1, 1)],
                [[0, 1], [1, 1], [1, 1]]⟩
      ∧ (∀ p ∈ ([(0, 1), (0, 0), (1, 1)] : List (Nat × Nat)).zip
            ([[0, 1], [1, 1], [1, 1]] : List (List ℤ)),
          p.1.1 = p.1.2 → p.2 = [1, 1])
      ∧ ([1, 1] : List ℤ) ≠ [0, 0] :=
  ⟨by decide, by decide, by decide⟩

/-! ## Claim C2: episode slice reconstruction -/

theorem episode_slice_eq {α : Type} (buf : List α) (s L : Nat)
    (_hs : s < buf.length) (hL : L ≤ buf.length) :
    episode_slice buf s L = ((buf ++ buf).drop (buf.length + s + 1 - L)).take L := by
  unfold episode_slice
  by_cases hw : (s + 1 : ℤ) - (L : ℤ) < 0
  · rw [if_pos hw]
    have hsw : s + 1 < L := by omega
    have htn : ((buf.length : ℤ) + ((s + 1 : ℤ) - (L : ℤ))).toNat
        = buf.length + s + 1 - L := by omega
    dsimp only
    rw [htn]
    have hd0 : buf.length + s + 1 - L - buf.length = 0 := by omega
    rw [List.drop_append_eq_append_drop, hd0, List.drop_zero]
    rw [List.take_append_eq_append_take]
    have hlen2 : (buf.drop (buf.length + s + 1 - L)).length = L - (s + 1) := by
      rw [List.length_drop]
      omega
    rw [List.take_of_length_le
      (show (List.drop (buf.length + s + 1 - L) buf).length ≤ L by rw [hlen2]; omega)]
    have harg : L - (List.drop (buf.length + s + 1 - L) buf).length = s + 1 := by
      rw [hlen2]
      omega
    rw [harg]
  · rw [if_neg hw]
    have hnw : L ≤ s + 1 := by omega
    have htn : ((s + 1 : ℤ) - (L : ℤ)).toNat = s + 1 - L := by omega
    rw [htn]
    have h1 : s + 1 - (s + 1 - L) = L := by omega
    rw [h1]
    have h2 : buf.length + s + 1 - L = buf.length + (s + 1 - L) := by omega
    rw [h2, List.drop_append]

theorem episode_slice_length {α : Type} (buf : List α) (s L : Nat)
    (hs : s < buf.length) (hL : L ≤ buf.length) :
    (episode_slice buf s L).length = L := by
  rw [episode_slice_eq buf s L hs hL]
  simp only [List.length_take, List.length_drop, List.length_append]
  omega

theorem episode_slice_getElem {α : Type} (buf : List α) (s L : Nat)
    (hs : s < buf.length) (hL : L ≤ buf.length) (i : Nat) (hi : i < L) :
    (episode_slice buf s L)[i]?
      = buf[(buf.length + s + 1 - L + i) % buf.length]? := by
  rw [episode_slice_eq buf s L hs hL]
  rw [List.getElem?_take_of_lt hi, List.getElem?_drop]
  by_cases hm : buf.length + s + 1 - L + i < buf.length
  · rw [List.getElem?_append_left hm, Nat.mod_eq_of_lt hm]
  · rw [List.getElem?_append_right (by omega)]
    have hmod : (buf.length + s + 1 - L + i) % buf.length
        = buf.length + s + 1 - L + i - buf.length := by
      rw [Nat.mod_eq_sub_mod (by omega), Nat.mod_eq_of_lt (by omega)]
    rw [hmod]

/-- Claim C2: for every finished episode of length `L` ending at buffer
step index `s` within one rollout's buffer of `num_steps` slots
(`L ≤ num_steps`, `s < num_steps`), the slice reconstruction of
`ppo.py` lines 260-271 returns exactly `L` (action, reward) entries for
that environment in chronological order — the slice equals the length-`L`
window of the circular buffer ending at slot `s`, entry `i` sitting at
buffer index `(num_steps + s + 1 - L + i) mod num_steps`; in the
wrap-around case (`(s+1) - L < 0`) it is the tail of the buffer followed
by its head. -/
theorem c2_episode_slice {α β : Type} (acts : List α) (rews : List β) (s L : Nat)
    (hs : s < acts.length) (hL : L ≤ acts.length) (hlen : rews.length = acts.length) :
    (episode_slice acts s L).length = L
      ∧ episode_slice acts s L = ((acts ++ acts).drop (acts.length + s + 1 - L)).take L
      ∧ (∀ i, i < L → (episode_slice acts s L)[i]?
          = acts[(acts.length + s + 1 - L + i) % acts.length]?)
      ∧ (episode_pairs acts rews s L).length = L := by
  refine ⟨episode_slice_length acts s L hs hL, episode_slice_eq acts s L hs hL,
    fun i hi => episode_slice_getElem acts s L hs hL i hi, ?_⟩
  rw [episode_pairs, List.length_zip,
    episode_slice_length acts s L hs hL,
    episode_slice_length rews s L (by omega) (by omega)]
  omega

/-- Closed witness for `c2_episode_slice`: the spec's own scenario, a
4-step buffer with an episode of length 3 ending at step index 1
(wrap-around: entries at buffer indices 3, 0, 1 in chronological order). -/
theorem c2_episode_slice_witness :
    ((1 : Nat) < ([10, 11, 12, 13] : List ℤ).length
      ∧ (3 : Nat) ≤ ([10, 11, 12, 13] : List ℤ).length
      ∧ ([(5 : ℚ), 6, 7, 8] : List ℚ).length = ([10, 11, 12, 13] : List ℤ).length)
      ∧ ((episode_slice ([10, 11, 12, 13] : List ℤ) 1 3).length = 3
        ∧ episode_slice ([10, 11, 12, 13] : List ℤ) 1 3
            = ((([10, 11, 12, 13] : List ℤ) ++ [10, 11, 12, 13]).drop
                (([10, 11, 12, 13] : List ℤ).length + 1 + 1 - 3)).take 3
        ∧ (∀ i, i < 3 → (episode_slice ([10, 11, 12, 13] : List ℤ) 1 3)[i]?
            = ([10, 11, 12, 13] : List ℤ)[(([10, 11, 12, 13] : List ℤ).length + 1 + 1 - 3 + i)
                % ([10, 11, 12, 13] : List ℤ).length]?)
        ∧ (episode_pairs ([10, 11, 12, 13] : List ℤ) ([5, 6, 7, 8] : List ℚ) 1 3).length = 3) :=
  ⟨⟨by decide, by decide, by decide⟩,
    c2_episode_slice [10, 11, 12, 13] [5, 6, 7, 8] 1 3 (by decide) (by decide) (by decide)⟩

/-! ## Claim C3: no divisibility validation at startup -/

theorem chunks_flatten {α : Type} (mbs : Nat) (hm : mbs ≠ 0) (l : List α) (s : Nat) :
    ((rangeStep s l.length mbs).map (fun st => (l.drop st).take mbs)).flatten
      = l.drop s := by
  generalize hk : l.length - s = k
  induction k using Nat.strong_induction_on generalizing s with
  | _ k ih =>
    by_cases hend : l.length ≤ s
    · rw [rangeStep, dif_pos (Or.inr hend)]
      simp [List.drop_eq_nil_of_le hend]
    · rw [rangeStep, dif_neg (not_or.mpr ⟨hm, hend⟩)]
      simp only [List.map_cons, List.flatten_cons]
      rw [ih (l.length - (s + mbs)) (by omega) (s + mbs) rfl]
      rw [← List.drop_drop]
      exact List.take_append_drop mbs (l.drop s)

/-- Claim C3 fails on the code: with `num_envs = 1`, `num_steps = 10`,
`num_minibatches = 4` (batch size 10 is not divisible by 4) startup
succeeds — `parse_args` computes `minibatch_size = 10 // 4 = 2` by floor
division and performs no validation, and the update loop then slices the
10 indices into 5 chunks of 2 without any error.  No fatal failure
occurs anywhere. -/
theorem c3_counterexample :
    parse_args_sizes 1 10 4 = Except.ok (10, 2)
      ∧ 10 % 4 ≠ 0
      ∧ minibatch_chunks (List.range 10) 2
          = Except.ok [[0, 1], [2, 3], [4, 5], [6, 7], [8, 9]] := by
  refine ⟨rfl, by decide, ?_⟩
  simp only [minibatch_chunks]
  norm_num
  simp [rangeStep, List.range_succ]

/-- Claim C3 (amended): startup performs no divisibility validation at
all — for every configuration with `num_minibatches ≠ 0`, `parse_args`
succeeds, returning `batch_size = num_envs * num_steps` and
`minibatch_size = batch_size // num_minibatches` (floor division); and
for every positive minibatch size, the inner loop's chunk slicing
succeeds and partitions the whole index list in order (with a smaller
final chunk when the sizes do not divide evenly). -/
theorem c3_amended (num_envs num_steps num_minibatches : Nat)
    (hm : num_minibatches ≠ 0) :
    parse_args_sizes num_envs num_steps num_minibatches
        = Except.ok (num_envs * num_steps, (num_envs * num_steps) / num_minibatches)
      ∧ ∀ (l : List Nat) (mbs : Nat), mbs ≠ 0 →
          ∃ cs, minibatch_chunks l mbs = Except.ok cs ∧ cs.flatten = l := by
  refine ⟨by simp [parse_args_sizes, hm], ?_⟩
  intro l mbs hmbs
  refine ⟨(rangeStep 0 l.length mbs).map (fun st => (l.drop st).take mbs),
    by simp [minibatch_chunks, hmbs], ?_⟩
  have h := chunks_flatten mbs hmbs l 0
  simpa using h

/-- Closed witness for `c3_amended` at the non-divisible configuration
`num_envs = 1`, `num_steps = 10`, `num_minibatches = 4`. -/
theorem c3_amended_witness :
    ((4 : Nat) ≠ 0)
      ∧ (parse_args_sizes 1 10 4 = Except.ok (1 * 10, (1 * 10) / 4)
        ∧ ∀ (l : List Nat) (mbs : Nat), mbs ≠ 0 →
            ∃ cs, minibatch_chunks l mbs = Except.ok cs ∧ cs.flatten = l) :=
  ⟨by decide, c3_amended 1 10 4 (by decide)⟩

/-- Claim C4 fails on the code: with threshold `1` and one epoch of two
minibatches with approximate KLs `[2, 0]` followed by a second epoch
`[0]`, the KL after the first minibatch (`2`) exceeds the threshold, yet
the trace of performed minibatch gradient steps is `[2, 0, 0]` — the
epoch's remaining minibatch and the whole next epoch still run, because
the source checks `approx_kl` (the last minibatch's value) only after
the inner minibatch loop finishes. -/
theorem c4_counterexample :
    kl_trace (some 1) [[2, 0], [0]] = [2, 0, 0]
      ∧ (1 : ℚ) < (kl_trace (some 1) [[2, 0], [0]]).getD 0 0
      ∧ 1 < (kl_trace (some 1) [[2, 0], [0]]).length := by
  refine ⟨by decide, by decide, by decide⟩

/-- Claim C4 (amended): when a target KL threshold is configured, every
epoch that is entered runs all of its minibatch gradient steps; after an
epoch, if the approximate KL of that epoch's last minibatch exceeds the
threshold, the remaining epochs are skipped (already-applied steps are
not reverted).  Formally, the performed trace is the concatenation of a
prefix of whole epochs, every non-final epoch of that prefix has its
last KL at or below the threshold, and if any epoch is skipped then the
prefix's final epoch exceeded it. -/
theorem c4_amended (t : ℚ) (epochs : List (List ℚ))
    (hne : ∀ e ∈ epochs, e ≠ []) :
    ∃ k, k ≤ epochs.length
      ∧ kl_trace (some t) epochs = (epochs.take k).flatten
      ∧ (∀ j, j + 1 < k → ¬ t < (epochs.getD j []).getLastD 0)
      ∧ (k < epochs.length → t < (epochs.getD (k - 1) []).getLastD 0)
      ∧ (epochs ≠ [] → 0 < k) := by
  induction epochs with
  | nil =>
    exact ⟨0, Nat.le_refl 0, rfl, fun j hj => absurd hj (by omega),
      fun h => absurd h (by simp), fun h => absurd rfl h⟩
  | cons e rest ih =>
    have hene : e ≠ [] := hne e (List.mem_cons_self e rest)
    have hlast : e.getLast? = some (e.getLastD 0) := by
      cases hgl : e.getLast? with
      | none => exact absurd (List.getLast?_eq_none_iff.mp hgl) hene
      | some y =>
        rw [List.getLastD_eq_getLast?, hgl]
        rfl
    by_cases hstop : t < e.getLastD 0
    · refine ⟨1, by simp, ?_, fun j hj => absurd hj (by omega), ?_, fun _ => Nat.one_pos⟩
      · simp only [kl_trace, hlast]
        rw [if_pos hstop]
        simp
      · intro _
        simpa using hstop
    · obtain ⟨k', hk'le, hk'tr, hk'no, hk'st, hk'pos⟩ :=
        ih (fun x hx => hne x (List.mem_cons_of_mem e hx))
      refine ⟨k' + 1, by simpa using hk'le, ?_, ?_, ?_, fun _ => by omega⟩
      · simp only [kl_trace, hlast]
        rw [if_neg hstop, hk'tr]
        simp
      · intro j hj
        cases j with
        | zero => simpa using hstop
        | succ j2 =>
          have h2 := hk'no j2 (by omega)
          simpa using h2
      · intro hklt
        have hrlen : k' < rest.length := by
          simp only [List.length_cons] at hklt
          omega
        have hkpos : 0 < k' := hk'pos (by
          intro hcon
          rw [hcon] at hrlen
          simp at hrlen)
        have hr := hk'st hrlen
        have hidx : k' + 1 - 1 = k' := by omega
        rw [hidx]
        cases k' with
        | zero => omega
        | succ k2 =>
          have h3 : k2 + 1 - 1 = k2 := by omega
          rw [h3] at hr
          simpa using hr

/-- Closed witness for `c4_amended` at the threshold `1` and the epochs
`[[2, 0], [0]]`. -/
theorem c4_amended_witness :
    (∀ e ∈ ([[2, 0], [0]] : List (List ℚ)), e ≠ [])
      ∧ (∃ k, k ≤ ([[2, 0], [0]] : List (List ℚ)).length
          ∧ kl_trace (some 1) [[2, 0], [0]]
              = (([[2, 0], [0]] : List (List ℚ)).take k).flatten
          ∧ (∀ j, j + 1 < k →
              ¬ (1 : ℚ) < (([[2, 0], [0]] : List (List ℚ)).getD j []).getLastD 0)
          ∧ (k < ([[2, 0], [0]] : List (List ℚ)).length →
              (1 : ℚ) < (([[2, 0], [0]] : List (List ℚ)).getD (k - 1) []).getLastD 0)
          ∧ (([[2, 0], [0]] : List (List ℚ)) ≠ [] → 0 < k)) :=
  ⟨by decide, c4_amended 1 [[2, 0], [0]] (by decide)⟩

/-! ## Claims C5 and C6: the advantage loops satisfy the GAE recursion -/

theorem adv_spec_stop (rews vals dns : Nat → ℚ) (nv nd gamma lam : ℚ)
    (T t : Nat) (ht : T ≤ t) :
    adv_spec rews vals dns nv nd gamma lam T t = 0 := by
  rw [adv_spec]
  rw [dif_pos ht]

theorem adv_spec_eq (rews vals dns : Nat → ℚ) (nv nd gamma lam : ℚ)
    (T t : Nat) (ht : t < T) :
    adv_spec rews vals dns nv nd gamma lam T t
      = (rews t + gamma * (if t = T - 1 then nv else vals (t + 1))
          * (if t = T - 1 then 1 - nd else 1 - dns (t + 1)) - vals t)
        + gamma * lam * (if t = T - 1 then 1 - nd else 1 - dns (t + 1))
          * adv_spec rews vals dns nv nd gamma lam T (t + 1) := by
  conv_lhs => rw [adv_spec]
  rw [dif_neg (by omega)]

theorem ret_spec_eq (rews vals dns : Nat → ℚ) (nv nd gamma : ℚ)
    (T t : Nat) (ht : t < T) :
    ret_spec rews vals dns nv nd gamma T t
      = rews t + gamma * (if t = T - 1 then 1 - nd else 1 - dns (t + 1))
          * (if t = T - 1 then nv
             else ret_spec rews vals dns nv nd gamma T (t + 1)) := by
  conv_lhs => rw [ret_spec]
  rw [dif_neg (by omega)]

theorem gae_loop_eq (rews vals dns : Nat → ℚ) (nv nd gamma lam : ℚ) (T : Nat) :
    ∀ t, t ≤ T → ∀ acc,
      gae_loop rews vals dns nv nd gamma lam T t
          (adv_spec rews vals dns nv nd gamma lam T t) acc
        = (List.range t).map (adv_spec rews vals dns nv nd gamma lam T) ++ acc := by
  intro t
  induction t with
  | zero => intro _ acc; simp [gae_loop]
  | succ t ih =>
    intro ht acc
    simp only [gae_loop]
    have hnew : (rews t + gamma * (if t = T - 1 then nv else vals (t + 1))
        * (if t = T - 1 then 1 - nd else 1 - dns (t + 1)) - vals t)
        + gamma * lam * (if t = T - 1 then 1 - nd else 1 - dns (t + 1))
          * adv_spec rews vals dns nv nd gamma lam T (t + 1)
        = adv_spec rews vals dns nv nd gamma lam T t :=
      (adv_spec_eq rews vals dns nv nd gamma lam T t (by omega)).symm
    rw [hnew]
    rw [ih (by omega) (adv_spec rews vals dns nv nd gamma lam T t :: acc)]
    rw [List.range_succ, List.map_append]
    simp

theorem advantages_gae_eq (rews vals dns : Nat → ℚ) (nv nd gamma lam : ℚ) (T : Nat) :
    advantages_gae rews vals dns nv nd gamma lam T
      = (List.range T).map (adv_spec rews vals dns nv nd gamma lam T) := by
  unfold advantages_gae
  have h0 : (0 : ℚ) = adv_spec rews vals dns nv nd gamma lam T T :=
    (adv_spec_stop rews vals dns nv nd gamma lam T T (Nat.le_refl T)).symm
  rw [h0, gae_loop_eq rews vals dns nv nd gamma lam T T (Nat.le_refl T) []]
  simp

theorem plain_loop_eq (rews vals dns : Nat → ℚ) (nv nd gamma : ℚ) (T : Nat) :
    ∀ t, t ≤ T → ∀ acc,
      plain_loop rews vals dns nv nd gamma T t
          (ret_spec rews vals dns nv nd gamma T t) acc
        = (List.range t).map (ret_spec rews vals dns nv nd gamma T) ++ acc := by
  intro t
  induction t with
  | zero => intro _ acc; simp [plain_loop]
  | succ t ih =>
    intro ht acc
    simp only [plain_loop]
    have hnew : rews t + gamma * (if t = T - 1 then 1 - nd else 1 - dns (t + 1))
        * (if t = T - 1 then nv else ret_spec rews vals dns nv nd gamma T (t + 1))
        = ret_spec rews vals dns nv nd gamma T t :=
      (ret_spec_eq rews vals dns nv nd gamma T t (by omega)).symm
    rw [hnew]
    rw [ih (by omega) (ret_spec rews vals dns nv nd gamma T t :: acc)]
    rw [List.range_succ, List.map_append]
    simp

theorem returns_plain_eq (rews vals dns : Nat → ℚ) (nv nd gamma : ℚ) (T : Nat) :
    returns_plain rews vals dns nv nd gamma T
      = (List.range T).map (ret_spec rews vals dns nv nd gamma T) := by
  unfold returns_plain
  have h0 : (0 : ℚ) = ret_spec rews vals dns nv nd gamma T T := by
    rw [ret_spec]
    rw [dif_pos (Nat.le_refl T)]
  rw [h0, plain_loop_eq rews vals dns nv nd gamma T T (Nat.le_refl T) []]
  simp

theorem map_range_getD (f : Nat → ℚ) (T t : Nat) (ht : t < T) :
    ((List.range T).map f).getD t 0 = f t := by
  rw [List.getD_eq_getElem?_getD]
  simp [List.getElem?_map, List.getElem?_range ht]

theorem returns_gae_eq (rews vals dns : Nat → ℚ) (nv nd gamma lam : ℚ) (T : Nat) :
    returns_gae rews vals dns nv nd gamma lam T
      = (List.range T).map
          (fun t => adv_spec rews vals dns nv nd gamma lam T t + vals t) := by
  unfold returns_gae values_list
  rw [advantages_gae_eq]
  rw [List.zipWith_map, List.zipWith_same]

/-- Claim C5: with GAE enabled, the backward loop's output satisfies, for
every step `t < T` (and, since all tensor operations are elementwise, for
every environment column), `advantage_t = delta_t + gamma * lambda *
nonterminal_t * advantage_{t+1}` with `advantage_T = 0`, where `delta_t =
reward_t + gamma * next_v_t * nonterminal_t - value_t` (nonterminal and
next value from `dones[t+1]`/`values[t+1]`, or `next_done`/`next_value`
at `t = T-1`), and the returned `return_t = advantage_t + value_t`
elementwise. -/
theorem c5_gae (rews vals dns : Nat → ℚ) (nv nd gamma lam : ℚ) (T t : Nat)
    (ht : t < T) :
    (advantages_gae rews vals dns nv nd gamma lam T).length = T
      ∧ (returns_gae rews vals dns nv nd gamma lam T).length = T
      ∧ (advantages_gae rews vals dns nv nd gamma lam T).getD t 0
          = (rews t + gamma * (if t = T - 1 then nv else vals (t + 1))
              * (if t = T - 1 then 1 - nd else 1 - dns (t + 1)) - vals t)
            + gamma * lam * (if t = T - 1 then 1 - nd else 1 - dns (t + 1))
              * (if t + 1 < T
                 then (advantages_gae rews vals dns nv nd gamma lam T).getD (t + 1) 0
                 else 0)
      ∧ (returns_gae rews vals dns nv nd gamma lam T).getD t 0
          = (advantages_gae rews vals dns nv nd gamma lam T).getD t 0 + vals t := by
  refine ⟨?_, ?_, ?_, ?_⟩
  · rw [advantages_gae_eq]
    simp
  · rw [returns_gae_eq]
    simp
  · rw [advantages_gae_eq, map_range_getD _ T t ht]
    have hrec := adv_spec_eq rews vals dns nv nd gamma lam T t ht
    rw [hrec]
    by_cases h1 : t + 1 < T
    · rw [if_pos h1, map_range_getD _ T (t + 1) h1]
    · rw [if_neg h1]
      rw [adv_spec_stop rews vals dns nv nd gamma lam T (t + 1) (by omega)]
  · rw [returns_gae_eq, advantages_gae_eq, map_range_getD _ T t ht,
      map_range_getD _ T t ht]

/-- Closed witness for `c5_gae` at `T = 2`, `t = 0`, concrete columns. -/
theorem c5_gae_witness :
    ((0 : Nat) < 2)
      ∧ ((advantages_gae (fun _ => 1) (fun _ => 2) (fun _ => 0) 3 0 (1/2) (1/4) 2).length = 2
        ∧ (returns_gae (fun _ => 1) (fun _ => 2) (fun _ => 0) 3 0 (1/2) (1/4) 2).length = 2
        ∧ (advantages_gae (fun _ => 1) (fun _ => 2) (fun _ => 0) 3 0 (1/2) (1/4) 2).getD 0 0
            = ((fun _ => (1 : ℚ)) 0 + (1/2) * (if (0 : Nat) = 2 - 1 then 3 else (fun _ => (2 : ℚ)) (0 + 1))
                * (if (0 : Nat) = 2 - 1 then 1 - 0 else 1 - (fun _ => (0 : ℚ)) (0 + 1)) - (fun _ => (2 : ℚ)) 0)
              + (1/2) * (1/4) * (if (0 : Nat) = 2 - 1 then 1 - 0 else 1 - (fun _ => (0 : ℚ)) (0 + 1))
                * (if 0 + 1 < 2
                   then (advantages_gae (fun _ => 1) (fun _ => 2) (fun _ => 0) 3 0 (1/2) (1/4) 2).getD (0 + 1) 0
                   else 0)
        ∧ (returns_gae (fun _ => 1) (fun _ => 2) (fun _ => 0) 3 0 (1/2) (1/4) 2).getD 0 0
            = (advantages_gae (fun _ => 1) (fun _ => 2) (fun _ => 0) 3 0 (1/2) (1/4) 2).getD 0 0
              + (fun _ => (2 : ℚ)) 0) :=
  ⟨by decide, c5_gae (fun _ => 1) (fun _ => 2) (fun _ => 0) 3 0 (1/2) (1/4) 2 0 (by decide)⟩

theorem adv_one_ret (rews vals dns : Nat → ℚ) (nv nd gamma : ℚ) (T : Nat) :
    ∀ t, t < T → adv_spec rews vals dns nv nd gamma 1 T t + vals t
      = ret_spec rews vals dns nv nd gamma T t := by
  suffices h : ∀ k t, T - t = k → t < T →
      adv_spec rews vals dns nv nd gamma 1 T t + vals t
        = ret_spec rews vals dns nv nd gamma T t by
    intro t ht
    exact h (T - t) t rfl ht
  intro k
  induction k using Nat.strong_induction_on with
  | _ k ih =>
    intro t hk ht
    rw [adv_spec_eq rews vals dns nv nd gamma 1 T t ht,
      ret_spec_eq rews vals dns nv nd gamma T t ht]
    by_cases hT : t = T - 1
    · simp only [if_pos hT]
      rw [adv_spec_stop rews vals dns nv nd gamma 1 T (t + 1) (by omega)]
      ring
    · simp only [if_neg hT]
      rw [← ih (T - (t + 1)) (by omega) (t + 1) rfl (by omega)]
      ring

/-- Claim C6: for every input, the GAE branch with `lambda = 1` produces
the same returns as the non-GAE plain discounted-return bootstrap branch,
and with `lambda = 0` each advantage equals the one-step TD error
`delta_t`. -/
theorem c6_reduction (rews vals dns : Nat → ℚ) (nv nd gamma : ℚ) (T : Nat) :
    returns_gae rews vals dns nv nd gamma 1 T
        = returns_plain rews vals dns nv nd gamma T
      ∧ advantages_gae rews vals dns nv nd gamma 0 T
          = (List.range T).map (fun t =>
              rews t + gamma * (if t = T - 1 then nv else vals (t + 1))
                * (if t = T - 1 then 1 - nd else 1 - dns (t + 1)) - vals t) := by
  constructor
  · rw [returns_gae_eq, returns_plain_eq]
    apply List.map_congr_left
    intro t hmem
    exact adv_one_ret rews vals dns nv nd gamma T t (List.mem_range.mp hmem)
  · rw [advantages_gae_eq]
    apply List.map_congr_left
    intro t hmem
    rw [adv_spec_eq rews vals dns nv nd gamma 0 T t (List.mem_range.mp hmem)]
    ring

/-- Claim C10: with advantage normalization enabled (the default), the
policy loss is not computed on the raw advantages — each minibatch's
advantages are first standardized (minibatch mean subtracted, result
divided by the minibatch standard deviation plus `1e-8`) before forming
the clipped surrogate terms.  Concretely: the normalized path equals the
raw surrogate applied to the standardized advantages, and on the
minibatch `adv = [0, 2, 4]`, `ratio = [1, 1, 1]`, `clip = 0.2` the
normalized loss is `0` while the raw-advantage loss is `-2`. -/
theorem c10_norm_adv :
    (∀ (adv ratio : List ℝ) (clip_coef : ℝ),
        pg_loss true adv ratio clip_coef
          = pg_loss_raw
              (adv.map (fun a => (a - tensor_mean adv) / (tensor_std adv + 1e-8)))
              ratio clip_coef)
      ∧ pg_loss true [0, 2, 4] [1, 1, 1] (2/10) = 0
      ∧ pg_loss false [0, 2, 4] [1, 1, 1] (2/10) = -2
      ∧ (0 : ℝ) ≠ -2 := by
  have hclamp : torch_clamp 1 (1 - 2/10) (1 + 2/10) = 1 := by
    rw [torch_clamp, max_eq_left (by norm_num), min_eq_left (by norm_num)]
  refine ⟨fun adv ratio cc => rfl, ?_, ?_, by norm_num⟩
  · simp only [pg_loss, normalize_advantages, pg_loss_raw, if_true,
      List.map_cons, List.map_nil, List.zip_cons_cons, List.zip_nil_left,
      hclamp, mul_one, max_self, tensor_mean, List.sum_cons, List.sum_nil,
      List.length_cons, List.length_nil]
    norm_num
    ring
  · simp only [pg_loss, pg_loss_raw, Bool.false_eq_true, if_false,
      List.map_cons, List.map_nil, List.zip_cons_cons, List.zip_nil_left,
      hclamp, mul_one, max_self, tensor_mean, List.sum_cons, List.sum_nil,
      List.length_cons, List.length_nil]
    norm_num
